import Mathlib

/-!
# Verification of the Perplexica-style `SearchAgent` (src/unnamed/part_000)

Shallow embedding of the retrieval-and-rerank pipeline implemented by the
`SearchAgent` class: web search dispatch (`searchWeb`), concurrent page
fetching with per-URL fault isolation (`getDocumentsFromUrls`), title
extraction (the regex `<title.*>(.*?)</title>` applied to the raw HTML),
embedding-based reranking (`rerankDocs`), configuration merging
(constructor spread over `defaultConfig`) and context assembly for answer
synthesis.

Modelling conventions:
* JavaScript numbers are modelled as `ℚ` (the claims under verification are
  order/structural properties, not floating-point rounding properties).
* External collaborators (the HTTP client `axios`, the `html-to-text` and
  text-splitter libraries, the embedding model) are modelled as explicit
  environments of functions; fallible external calls return `Except`.
* The npm library `compute-cosine-similarity` is external to this
  repository; its scoring function is kept as an explicit parameter
  (`cosSim`), so every theorem holds for *every* possible behaviour of that
  library.  `compute-dot` is modelled from the spec: `Σ vᵢwᵢ`.
* `Promise.all` over the URL list with one `docs.push(...)` per task is
  modelled by an explicit completion order: the final array is the
  concatenation of the per-URL chunk blocks in completion order, which is
  some permutation of the input URL list.
-/

/-- Chunk-document metadata: `{ title, url }`, as built in
`getDocumentsFromUrls`. -/
structure DocMetadata where
  title : String
  url : String
deriving DecidableEq, Inhabited, Repr

/-- LangChain `Document` as used by the agent: `pageContent` plus metadata. -/
structure Document where
  pageContent : String
  metadata : DocMetadata
deriving DecidableEq, Inhabited, Repr

/-- The `similarityMeasure` configuration value (`'cosine' | 'dot'`). -/
inductive SimilarityMeasure where
  | cosine
  | dot
deriving DecidableEq, Repr

/-- `SearchConfig`: every field is optional at the TypeScript level
(`similarityMeasure?`, `rerankThreshold?`, `maxResults?`); `none` models an
absent field. -/
structure SearchConfig where
  similarityMeasure : Option SimilarityMeasure
  rerankThreshold : Option ℚ
  maxResults : Option ℕ
deriving DecidableEq, Repr

/-- `defaultConfig = { similarityMeasure: 'cosine', rerankThreshold: 0.3,
maxResults: 15 }`. -/
def defaultConfig : SearchConfig :=
  { similarityMeasure := some SimilarityMeasure.cosine
    rerankThreshold := some (3/10)
    maxResults := some 15 }

/-- One field of the object spread `{ ...base, ...override }`: the override
value wins when present. -/
def spreadField {α : Type} (base override : Option α) : Option α :=
  match override with
  | some v => some v
  | none => base

/-- The object spread `{ ...defaultConfig, ...config }` performed by the
`SearchAgent` constructor. -/
def spreadConfig (base override : SearchConfig) : SearchConfig :=
  { similarityMeasure := spreadField base.similarityMeasure override.similarityMeasure
    rerankThreshold := spreadField base.rerankThreshold override.rerankThreshold
    maxResults := spreadField base.maxResults override.maxResults }

/-- The `SearchAgent` object: its only state is the configuration built once
by the constructor.  Every operation below is a pure function of this
configuration — no operation produces an updated agent, which is the
embedding of "the configuration is never mutated after construction". -/
structure SearchAgent where
  config : SearchConfig
deriving DecidableEq, Repr

/-- `new SearchAgent(config)`: `this.config = { ...defaultConfig, ...config }`. -/
def mkSearchAgent (config : SearchConfig) : SearchAgent :=
  { config := spreadConfig defaultConfig config }

/-- Modelled from the spec: the external npm package `compute-dot` returns
the raw inner product `Σ vᵢwᵢ` of the two vectors. -/
def computeDot (x y : List ℚ) : ℚ :=
  (List.zipWith (fun a b => a * b) x y).sum

/-- `SearchAgent.computeSimilarity`: dispatches on
`this.config.similarityMeasure === 'cosine'` between the external
`cosineSimilarity` library (the parameter `cosSim`) and `computeDot`. -/
def computeSimilarity (cosSim : List ℚ → List ℚ → ℚ) (cfg : SearchConfig)
    (x y : List ℚ) : ℚ :=
  if cfg.similarityMeasure = some SimilarityMeasure.cosine then cosSim x y
  else computeDot x y

/-- The embedding-model collaborator (`Embeddings`): `embedQuery` and
`embedDocuments` (order-preserving, one vector per input text, per spec §6). -/
structure Embeddings where
  embedQuery : String → List ℚ
  embedDocuments : List String → List (List ℚ)

/-- Observable calls made to the embedding model by `rerankDocs`. -/
inductive EmbCall where
  | embedQuery (query : String)
  | embedDocuments (texts : List String)
deriving DecidableEq, Repr

/-- JavaScript `this.config.rerankThreshold || 0.3`: `0` (the only falsy
rational) and an absent value both fall back to `0.3`. -/
def effectiveThreshold (t : Option ℚ) : ℚ :=
  match t with
  | none => 3/10
  | some q => if q = 0 then 3/10 else q

/-- JavaScript `.slice(0, this.config.maxResults)`: an absent bound keeps
the whole list, otherwise the first `m` elements are kept. -/
def sliceMax {α : Type} (m : Option ℕ) (l : List α) : List α :=
  match m with
  | none => l
  | some n => l.take n

/-- The scored index list built inside `rerankDocs`:
`docEmbeddings.map((docEmbedding, i) => ({ index: i, similarity: ... }))`,
modelled as `(index, similarity)` pairs. -/
def docSims (cosSim : List ℚ → List ℚ → ℚ) (cfg : SearchConfig)
    (queryEmbedding : List ℚ) (docEmbeddings : List (List ℚ)) : List (ℕ × ℚ) :=
  docEmbeddings.enum.map
    (fun p => (p.1, computeSimilarity cosSim cfg queryEmbedding p.2))

/-- The comparator `(a, b) => b.similarity - a.similarity` orders `a` before
`b` exactly when `b.similarity ≤ a.similarity`; JavaScript `sort` is stable. -/
def simOrder (a b : ℕ × ℚ) : Prop := b.2 ≤ a.2

instance : DecidableRel simOrder := fun a b => inferInstanceAs (Decidable (b.2 ≤ a.2))

/-- The `filter`/`sort`/`slice` pipeline of `rerankDocs`, on the scored
index pairs (before the final `.map(sim => docs[sim.index])`). -/
def rerankSims (cosSim : List ℚ → List ℚ → ℚ) (cfg : SearchConfig)
    (queryEmbedding : List ℚ) (docEmbeddings : List (List ℚ)) : List (ℕ × ℚ) :=
  sliceMax cfg.maxResults
    (List.insertionSort simOrder
      ((docSims cosSim cfg queryEmbedding docEmbeddings).filter
        (fun s => effectiveThreshold cfg.rerankThreshold < s.2)))

/-- `SearchAgent.rerankDocs`, instrumented with the list of embedding-model
calls it makes.  `if (docs.length === 0) return [];` happens before any
embedding call; otherwise `embedQuery(query)` and
`embedDocuments(docs.map(doc => doc.pageContent))` are both issued
(via `Promise.all`) and the scored pipeline result is mapped back through
`docs[sim.index]` (an out-of-range index, impossible for a spec-conforming
embedding model, is modelled by `getD` with the default document). -/
def rerankDocsT (cosSim : List ℚ → List ℚ → ℚ) (cfg : SearchConfig)
    (query : String) (docs : List Document) (emb : Embeddings) :
    List Document × List EmbCall :=
  if docs.isEmpty then ([], [])
  else
    let queryEmbedding := emb.embedQuery query
    let docEmbeddings := emb.embedDocuments (docs.map Document.pageContent)
    ((rerankSims cosSim cfg queryEmbedding docEmbeddings).map
        (fun s => docs.getD s.1 default),
     [EmbCall.embedQuery query,
      EmbCall.embedDocuments (docs.map Document.pageContent)])

/-- The document list returned by `SearchAgent.rerankDocs`. -/
def rerankDocs (cosSim : List ℚ → List ℚ → ℚ) (cfg : SearchConfig)
    (query : String) (docs : List Document) (emb : Embeddings) : List Document :=
  (rerankDocsT cosSim cfg query docs emb).1

/-! ## Title extraction

`getDocumentsFromUrls` computes
`response.data.match(/<title.*>(.*?)<\/title>/)?.[1] || url`.
The regex engine below implements exactly the leftmost match of this
pattern with JavaScript semantics: `.` matches everything except line
terminators, `.*` is greedy (longest viable extent wins), `(.*?)` is lazy
(shortest viable capture wins). -/

/-- JavaScript regex `.`: any character except a line terminator. -/
def isDot (c : Char) : Bool :=
  !(c = '\n' || c = '\r' || c.toNat = 0x2028 || c.toNat = 0x2029)

/-- Literal-prefix test on character lists. -/
def charsPre : List Char → List Char → Bool
  | [], _ => true
  | _ :: _, [] => false
  | a :: as, b :: bs => a = b && charsPre as bs

/-- Does `needle` occur as a contiguous subsequence of the list? -/
def hasSub (needle : List Char) : List Char → Bool
  | [] => charsPre needle []
  | l@(_ :: rest) => charsPre needle l || hasSub needle rest

/-- The characters of the literal `</title>`. -/
def closeTag : List Char := ['<', '/', 't', 'i', 't', 'l', 'e', '>']

/-- The characters of the literal `<title`. -/
def openTagHead : List Char := ['<', 't', 'i', 't', 'l', 'e']

/-- Lazy tail `(.*?)<\/title>`: the shortest line-terminator-free capture
followed by the literal `</title>`. -/
def lazyCapture : List Char → Option (List Char)
  | [] => if charsPre closeTag [] then some [] else none
  | l@(c :: rest) =>
    if charsPre closeTag l then some []
    else if isDot c then (lazyCapture rest).map (fun cap => c :: cap)
    else none

/-- Greedy middle `.*>` followed by the lazy tail: the *longest*
line-terminator-free extent ending at a literal `>` after which the lazy
tail matches wins (deeper recursion is preferred). -/
def greedyA : List Char → Option (List Char)
  | [] => none
  | c :: rest =>
    match (if isDot c then greedyA rest else none) with
    | some cap => some cap
    | none => if c = '>' then lazyCapture rest else none

/-- Leftmost match of `/<title.*>(.*?)<\/title>/`: scan for the first
position where the literal `<title` matches and the rest of the pattern can
complete; return the captured group. -/
def titleCapture : List Char → Option (List Char)
  | [] => none
  | l@(_ :: rest) =>
    if charsPre openTagHead l then
      match greedyA (l.drop 6) with
      | some cap => some cap
      | none => titleCapture rest
    else titleCapture rest

/-- `response.data.match(/<title.*>(.*?)<\/title>/)?.[1] || url`: the
captured group when a match exists and the capture is non-empty (the empty
string is falsy), the source URL otherwise. -/
def extractTitle (html url : String) : String :=
  match titleCapture html.data with
  | none => url
  | some cap => if cap.isEmpty then url else String.mk cap

/-! ## Fetching and chunking -/

/-- JavaScript `\s` (whitespace class), covering the characters relevant to
the `.replace(/\s+/g, ' ')` and `.trim()` steps. -/
def isJsWs (c : Char) : Bool :=
  c = ' ' || c = '\t' || c = '\n' || c = '\r' || c = '\x0b' || c = '\x0c' ||
  c.toNat = 0xa0 || c.toNat = 0x1680 || c.toNat = 0x2028 || c.toNat = 0x2029 ||
  c.toNat = 0x202f || c.toNat = 0x205f || c.toNat = 0x3000 || c.toNat = 0xfeff ||
  (0x2000 ≤ c.toNat && c.toNat ≤ 0x200a)

/-- `.replace(/(\r\n|\n|\r)/gm, ' ')`: each line break (the alternation
prefers `\r\n`) becomes one space. -/
def replaceNewlines : List Char → List Char
  | [] => []
  | '\r' :: '\n' :: rest => ' ' :: replaceNewlines rest
  | '\n' :: rest => ' ' :: replaceNewlines rest
  | '\r' :: rest => ' ' :: replaceNewlines rest
  | c :: rest => c :: replaceNewlines rest

/-- `.replace(/\s+/g, ' ')`: every maximal whitespace run becomes one space. -/
def collapseWs : List Char → List Char
  | [] => []
  | c :: rest =>
    if isJsWs c then ' ' :: collapseWs (rest.dropWhile isJsWs)
    else c :: collapseWs rest
termination_by l => l.length
decreasing_by
  · simpa [Nat.lt_succ_iff] using (List.dropWhile_sublist isJsWs).length_le
  · simp [Nat.lt_succ_iff]

/-- `.trim()`: strip whitespace from both ends. -/
def jsTrim (l : List Char) : List Char :=
  ((l.dropWhile isJsWs).reverse.dropWhile isJsWs).reverse

/-- The whole normalization chain applied to the extracted text:
`htmlToText(...).replace(/(\r\n|\n|\r)/gm, ' ').replace(/\s+/g, ' ').trim()`. -/
def normalizeText (s : String) : String :=
  String.mk (jsTrim (collapseWs (replaceNewlines s.data)))

/-- The external collaborators used by `getDocumentsFromUrls`: `axios.get`
(which resolves with the raw HTML body or rejects), the `html-to-text`
conversion with the configured selector options (which may throw), and
`RecursiveCharacterTextSplitter.splitText` (which may reject). -/
structure FetchEnv where
  fetchPage : String → Except String String
  htmlToText : String → Except String String
  splitText : String → Except String (List String)

/-- The body of one `urls.map(async url => ...)` task: fetch the page,
extract and normalize the text, split it into chunks, scrape the title from
the *raw* HTML, and build one `Document` per chunk.  The surrounding
`try/catch` converts any failure of the three external calls into zero
documents for this URL. -/
def processUrl (env : FetchEnv) (url : String) : List Document :=
  match env.fetchPage url with
  | Except.error _ => []
  | Except.ok html =>
    match env.htmlToText html with
    | Except.error _ => []
    | Except.ok raw =>
      match env.splitText (normalizeText raw) with
      | Except.error _ => []
      | Except.ok chunks =>
        let title := extractTitle html url
        chunks.map (fun chunk =>
          { pageContent := chunk, metadata := { title := title, url := url } })

/-- `SearchAgent.getDocumentsFromUrls`: all URL tasks run concurrently under
`Promise.all`, and each completed task appends its chunk block to the shared
`docs` array with a single `push`.  The function is therefore parametrised
by the completion order, a permutation of the input URL list; the result is
the concatenation of the per-URL blocks in that order. -/
def getDocumentsFromUrls (env : FetchEnv) (completionOrder : List String) :
    List Document :=
  (completionOrder.map (processUrl env)).flatten

/-! ## Web search -/

/-- One entry of the JSON body's `results` array; the core only reads `url`. -/
structure SearchResult where
  url : String
deriving DecidableEq, Repr

/-- The parsed JSON body of the search endpoint's response: `results` may be
absent (`none` models the JavaScript `undefined` read `response.data.results`). -/
structure SearxResponse where
  results : Option (List SearchResult)

/-- The HTTP collaborator for `searchWeb`: the configured base URL
(`process.env.SEARXNG_URL`) and `axios.get` on the assembled search URL.
A failure of the `new URL(...)` constructor is absorbed into a failing
`get`, since both raise inside the same `try` block. -/
structure HttpEnv where
  searxngUrl : String
  get : String → Except String SearxResponse

/-- The URL assembled by `searchWeb` (`<base>/search` with query parameters
`q`, `format=json`, `language=en`; percent-encoding of the query is left
abstract, which no claim depends on). -/
def searxSearchUrl (base query : String) : String :=
  base ++ "/search?q=" ++ query ++ "&format=json&language=en"

/-- `SearchAgent.searchWeb`: on a successful request it returns
`response.data.results` *as is* (possibly the absent value, modelled
`none`); the `catch` branch converts a thrown error — and only a thrown
error — into the empty array (`some []`). -/
def searchWeb (env : HttpEnv) (query : String) : Option (List SearchResult) :=
  match env.get (searxSearchUrl env.searxngUrl query) with
  | Except.ok resp => resp.results
  | Except.error _ => some []

/-- The retrieval `RunnableLambda` of `search`:
`const results = await this.searchWeb(searchQuery);`
`const docs = await this.getDocumentsFromUrls(results.map(r => r.url));`
`return this.rerankDocs(searchQuery, docs, embeddings);`
When `results` is the absent value, the member call `results.map` throws a
`TypeError`, modelled as `Except.error`.  `sched` selects the completion
order of the concurrent fetches. -/
def retrievalStep (cosSim : List ℚ → List ℚ → ℚ) (henv : HttpEnv)
    (fenv : FetchEnv) (emb : Embeddings) (cfg : SearchConfig)
    (sched : List String → List String) (searchQuery : String) :
    Except String (List Document) :=
  match searchWeb henv searchQuery with
  | none => Except.error "TypeError: results is undefined"
  | some results =>
    Except.ok
      (rerankDocs cosSim cfg searchQuery
        (getDocumentsFromUrls fenv (sched (results.map SearchResult.url)))
        emb)

/-! ## Context assembly -/

/-- JavaScript `Array.prototype.join(sep)`. -/
def joinSep (sep : String) : List String → String
  | [] => ""
  | [x] => x
  | x :: y :: rest => x ++ sep ++ joinSep sep (y :: rest)

/-- The `context` field of the answer chain:
`input.docs.map((doc, i) => \`[i+1] title\ncontent\`).join('\n\n')`. -/
def answerContext (docs : List Document) : String :=
  joinSep "\n\n"
    (docs.enum.map
      (fun p =>
        "[" ++ toString (p.1 + 1) ++ "] " ++ p.2.metadata.title ++ "\n" ++
          p.2.pageContent))

/-- Modelled from the spec: the rendering of one surviving document,
"`[i] title\ncontent`" at (1-indexed) position `i`. -/
def specRenderDoc (i : ℕ) (d : Document) : String :=
  "[" ++ toString i ++ "] " ++ d.metadata.title ++ "\n" ++ d.pageContent

/-- Modelled from the spec: number each surviving document starting at `i`,
in order, and join the renderings with blank lines (two newlines). -/
def specContextFrom : ℕ → List Document → String
  | _, [] => ""
  | i, [d] => specRenderDoc i d
  | i, d :: rest => specRenderDoc i d ++ "\n\n" ++ specContextFrom (i + 1) rest

/-! ## Concrete fixtures used by the witness theorems -/

/-- A concrete document. -/
def wDoc : Document :=
  { pageContent := "hello world", metadata := { title := "T", url := "https://a.test/" } }

/-- A concrete embedding model: every text embeds to `[1]`. -/
def wEmb1 : Embeddings :=
  { embedQuery := fun _ => [1]
    embedDocuments := fun ts => ts.map (fun _ => [1]) }

/-- A concrete configuration (`dot` measure, threshold `1/2`, at most 2 results). -/
def wCfg : SearchConfig :=
  { similarityMeasure := some SimilarityMeasure.dot
    rerankThreshold := some (1/2)
    maxResults := some 2 }

/-- A concrete fetch environment: `https://a.test/` succeeds and chunks into
three pieces, every other URL fails with a network error. -/
def wFetchEnv : FetchEnv :=
  { fetchPage := fun u =>
      if u = "https://a.test/" then Except.ok "<html><title>T</title>body</html>"
      else Except.error "network error"
    htmlToText := fun h => Except.ok h
    splitText := fun _ => Except.ok ["c1", "c2", "c3"] }

/-- An HTTP environment whose every request fails. -/
def wHttpErr : HttpEnv :=
  { searxngUrl := "http://searx.local", get := fun _ => Except.error "ECONNREFUSED" }

/-- An HTTP environment that answers successfully with a body lacking the
`results` field. -/
def wHttpNone : HttpEnv :=
  { searxngUrl := "http://searx.local", get := fun _ => Except.ok { results := none } }

/-! ## Helper lemmas -/

theorem perm_flatten_of_perm {α : Type} {l₁ l₂ : List (List α)} (h : l₁.Perm l₂) :
    l₁.flatten.Perm l₂.flatten := by
  induction h with
  | nil => exact List.Perm.refl _
  | cons x _ ih => simpa only [List.flatten_cons] using ih.append_left x
  | swap x y l =>
    simp only [List.flatten_cons, ← List.append_assoc]
    exact (List.perm_append_comm).append_right l.flatten
  | trans _ _ ih1 ih2 => exact ih1.trans ih2

/-! ## Claim theorems (first batch) -/

/-- C5: calling `rerankDocs` with an empty document list returns the empty
list immediately, and the embedding model is never invoked (the instrumented
call trace is empty), for every query, configuration and embedding model. -/
theorem rerankDocs_empty_no_embedding_calls
    (cosSim : List ℚ → List ℚ → ℚ) (cfg : SearchConfig) (query : String)
    (emb : Embeddings) :
    rerankDocsT cosSim cfg query [] emb = ([], []) := rfl

/-- C6: whenever the request to the external search endpoint fails,
`searchWeb` does not propagate the error: it returns the empty result
sequence (the JavaScript `[]`, modelled `some []`). -/
theorem searchWeb_error_returns_empty
    (env : HttpEnv) (query : String) (e : String)
    (h : env.get (searxSearchUrl env.searxngUrl query) = Except.error e) :
    searchWeb env query = some [] := by
  simp [searchWeb, h]

/-- Witness for C6 at a concrete always-failing HTTP environment. -/
theorem searchWeb_error_returns_empty_witness :
    wHttpErr.get (searxSearchUrl wHttpErr.searxngUrl "quantum computing") =
        Except.error "ECONNREFUSED" ∧
      searchWeb wHttpErr "quantum computing" = some [] :=
  ⟨rfl, searchWeb_error_returns_empty wHttpErr "quantum computing" "ECONNREFUSED" rfl⟩

/-- C8: a `SearchAgent` built from a partial configuration falls back to the
documented defaults (`cosine`, `0.3`, `15`) for every field the caller did
not supply.  Immutability after construction is structural in this
embedding: the agent's only state is `config`, and every operation is a pure
function that consumes it and never produces an updated agent. -/
theorem searchAgent_defaults_on_partial_config (c : SearchConfig) :
    (c.similarityMeasure = none →
        (mkSearchAgent c).config.similarityMeasure = some SimilarityMeasure.cosine) ∧
      (c.rerankThreshold = none →
        (mkSearchAgent c).config.rerankThreshold = some (3/10)) ∧
      (c.maxResults = none → (mkSearchAgent c).config.maxResults = some 15) := by
  refine ⟨fun h => ?_, fun h => ?_, fun h => ?_⟩ <;>
    simp [mkSearchAgent, spreadConfig, spreadField, defaultConfig, h]

/-- Witness for C8 at the fully-absent configuration `{}`. -/
theorem searchAgent_defaults_on_partial_config_witness :
    (({ similarityMeasure := none, rerankThreshold := none, maxResults := none } :
        SearchConfig).similarityMeasure = none →
      (mkSearchAgent
          { similarityMeasure := none, rerankThreshold := none, maxResults := none }
        ).config.similarityMeasure = some SimilarityMeasure.cosine) ∧
    (({ similarityMeasure := none, rerankThreshold := none, maxResults := none } :
        SearchConfig).rerankThreshold = none →
      (mkSearchAgent
          { similarityMeasure := none, rerankThreshold := none, maxResults := none }
        ).config.rerankThreshold = some (3/10)) ∧
    (({ similarityMeasure := none, rerankThreshold := none, maxResults := none } :
        SearchConfig).maxResults = none →
      (mkSearchAgent
          { similarityMeasure := none, rerankThreshold := none, maxResults := none }
        ).config.maxResults = some 15) :=
  searchAgent_defaults_on_partial_config
    { similarityMeasure := none, rerankThreshold := none, maxResults := none }

/-- C10: when the endpoint responds successfully but the body has no
`results` field, `searchWeb` forwards the absent value (`none`) — the
`catch` branch converts only thrown errors to `[]` — and the retrieval step
then applies `.map` to that non-sequence value, which throws. -/
theorem searchWeb_missing_results_is_undefined
    (cosSim : List ℚ → List ℚ → ℚ) (henv : HttpEnv) (fenv : FetchEnv)
    (emb : Embeddings) (cfg : SearchConfig) (sched : List String → List String)
    (query : String) (resp : SearxResponse)
    (hok : henv.get (searxSearchUrl henv.searxngUrl query) = Except.ok resp)
    (hnone : resp.results = none) :
    searchWeb henv query = none ∧
      searchWeb henv query ≠ some [] ∧
      retrievalStep cosSim henv fenv emb cfg sched query =
        Except.error "TypeError: results is undefined" := by
  have hw : searchWeb henv query = none := by simp [searchWeb, hok, hnone]
  refine ⟨hw, by simp [hw], ?_⟩
  simp [retrievalStep, hw]

/-- Witness for C10 at a concrete environment answering without `results`. -/
theorem searchWeb_missing_results_is_undefined_witness :
    wHttpNone.get (searxSearchUrl wHttpNone.searxngUrl "q") =
        Except.ok { results := none } ∧
      ({ results := none } : SearxResponse).results = none ∧
      (searchWeb wHttpNone "q" = none ∧
        searchWeb wHttpNone "q" ≠ some [] ∧
        retrievalStep (fun _ _ => 0) wHttpNone wFetchEnv wEmb1 wCfg id "q" =
          Except.error "TypeError: results is undefined") :=
  ⟨rfl, rfl,
    searchWeb_missing_results_is_undefined (fun _ _ => 0) wHttpNone wFetchEnv
      wEmb1 wCfg id "q" { results := none } rfl rfl⟩

/-- C2: a failed URL contributes zero documents and never aborts the sibling
fetches or the overall call: with two URLs where the second fails, either
completion order yields exactly the successful URL's chunk block; and in
general, for any completion order of the input URLs, the output is exactly
the concatenation of all per-URL chunk blocks (up to the cross-URL order,
which the concurrency leaves unspecified). -/
theorem getDocumentsFromUrls_fault_isolation
    (env : FetchEnv) (u1 u2 : String) (order : List String) (e : String)
    (horder : order = [u1, u2] ∨ order = [u2, u1])
    (herr : env.fetchPage u2 = Except.error e) :
    getDocumentsFromUrls env order = processUrl env u1 ∧
      ∀ (urls ord : List String), ord.Perm urls →
        (getDocumentsFromUrls env ord).Perm ((urls.map (processUrl env)).flatten) := by
  constructor
  · have h2 : processUrl env u2 = [] := by simp [processUrl, herr]
    rcases horder with h | h <;> subst h <;>
      simp [getDocumentsFromUrls, h2]
  · intro urls ord hperm
    exact perm_flatten_of_perm (hperm.map (processUrl env))

/-- Witness for C2: `https://a.test/` yields the three chunks `c1 c2 c3`,
`https://b.test/` fails, and the output is exactly the three chunks. -/
theorem getDocumentsFromUrls_fault_isolation_witness :
    (([ "https://a.test/", "https://b.test/" ] : List String) =
          ["https://a.test/", "https://b.test/"] ∨
        ([ "https://a.test/", "https://b.test/" ] : List String) =
          ["https://b.test/", "https://a.test/"]) ∧
      wFetchEnv.fetchPage "https://b.test/" = Except.error "network error" ∧
      (processUrl wFetchEnv "https://a.test/").length = 3 ∧
      getDocumentsFromUrls wFetchEnv ["https://a.test/", "https://b.test/"] =
        processUrl wFetchEnv "https://a.test/" := by
  refine ⟨Or.inl rfl, rfl, rfl, ?_⟩
  exact (getDocumentsFromUrls_fault_isolation wFetchEnv "https://a.test/"
      "https://b.test/" ["https://a.test/", "https://b.test/"] "network error"
      (Or.inl rfl) rfl).1

/-- Auxiliary form of the context-assembly equivalence, generalised over the
starting index of the enumeration. -/
theorem joinSep_enumFrom_eq_specContextFrom (docs : List Document) : ∀ n : ℕ,
    joinSep "\n\n"
        ((List.enumFrom n docs).map
          (fun p =>
            "[" ++ toString (p.1 + 1) ++ "] " ++ p.2.metadata.title ++ "\n" ++
              p.2.pageContent)) =
      specContextFrom (n + 1) docs := by
  induction docs with
  | nil => intro n; rfl
  | cons d ds ih =>
    intro n
    cases ds with
    | nil => rfl
    | cons e es =>
      have h := ih (n + 1)
      simp only [List.enumFrom_cons, List.map_cons, joinSep, specContextFrom,
        specRenderDoc] at h ⊢
      rw [h]

/-- C7: the context string passed to answer synthesis renders each document
as `[i] title` then a newline then its content, `i` being the 1-indexed
position in the order the reranker returned the documents, joined with blank
lines; the source-level `enum`/`map`/`join` pipeline (`answerContext`)
coincides with this spec-level description (`specContextFrom 1`). -/
theorem answerContext_eq_spec (docs : List Document) :
    answerContext docs = specContextFrom 1 docs := by
  simpa [answerContext, List.enum] using joinSep_enumFrom_eq_specContextFrom docs 0

/-! ## Rerank ordering machinery -/

/-- Strict "score descending, ties by input position" order: the shape of
the output of a stable descending sort over distinct input positions. -/
def stableOrder (a b : ℕ × ℚ) : Prop := b.2 < a.2 ∨ (a.2 = b.2 ∧ a.1 < b.1)

theorem le_effectiveThreshold (t : ℚ) : t ≤ effectiveThreshold (some t) := by
  simp only [effectiveThreshold]
  split_ifs with h
  · subst h; norm_num
  · exact le_refl t

theorem pairwise_stable_orderedInsert (a : ℕ × ℚ) :
    ∀ l : List (ℕ × ℚ), l.Pairwise stableOrder → (∀ x ∈ l, a.1 < x.1) →
      (List.orderedInsert simOrder a l).Pairwise stableOrder := by
  intro l
  induction l with
  | nil =>
    intro _ _
    simp [List.orderedInsert]
  | cons b t ih =>
    intro hp hidx
    obtain ⟨hbt, hpt⟩ := List.pairwise_cons.1 hp
    by_cases h : simOrder a b
    · have heq : List.orderedInsert simOrder a (b :: t) = a :: b :: t := by
        simp [List.orderedInsert, h]
      rw [heq]
      refine List.pairwise_cons.2 ⟨?_, hp⟩
      intro x hx
      rcases List.mem_cons.1 hx with rfl | hxt
      · rcases lt_or_eq_of_le h with hlt | heq2
        · exact Or.inl hlt
        · exact Or.inr ⟨heq2.symm, hidx x (List.mem_cons_self x t)⟩
      · have hbx := hbt x hxt
        have hax1 : a.1 < x.1 := hidx x (List.mem_cons_of_mem b hxt)
        rcases hbx with hlt | ⟨heq2, _⟩
        · exact Or.inl (lt_of_lt_of_le hlt h)
        · have hxa : x.2 ≤ a.2 := heq2 ▸ h
          rcases lt_or_eq_of_le hxa with hlt2 | heq3
          · exact Or.inl hlt2
          · exact Or.inr ⟨heq3.symm, hax1⟩
    · have heq : List.orderedInsert simOrder a (b :: t) =
          b :: List.orderedInsert simOrder a t := by
        simp [List.orderedInsert, h]
      rw [heq]
      refine List.pairwise_cons.2
        ⟨?_, ih hpt (fun x hx => hidx x (List.mem_cons_of_mem b hx))⟩
      intro y hy
      rcases (List.mem_orderedInsert simOrder).1 hy with hya | hyt
      · rw [hya]
        exact Or.inl (not_le.1 (by simpa [simOrder] using h))
      · exact hbt y hyt

theorem pairwise_stable_insertionSort :
    ∀ l : List (ℕ × ℚ), l.Pairwise (fun x y => x.1 < y.1) →
      (List.insertionSort simOrder l).Pairwise stableOrder := by
  intro l
  induction l with
  | nil =>
    intro _
    simp [List.insertionSort]
  | cons a t ih =>
    intro hp
    obtain ⟨hat, hpt⟩ := List.pairwise_cons.1 hp
    have hmem : ∀ x ∈ List.insertionSort simOrder t, a.1 < x.1 := by
      intro x hx
      exact hat x ((List.mem_insertionSort simOrder).1 hx)
    rw [List.insertionSort]
    exact pairwise_stable_orderedInsert a _ (ih hpt) hmem

theorem le_fst_of_mem_enumFrom {α : Type} :
    ∀ (l : List α) (n : ℕ) (x : ℕ × α), x ∈ List.enumFrom n l → n ≤ x.1 := by
  intro l
  induction l with
  | nil =>
    intro n x hx
    simp [List.enumFrom] at hx
  | cons a t ih =>
    intro n x hx
    rcases List.mem_cons.1 (by simpa [List.enumFrom_cons] using hx) with rfl | hxt
    · exact le_refl n
    · exact le_trans (Nat.le_succ n) (ih (n + 1) x hxt)

theorem pairwise_fst_lt_enumFrom {α : Type} :
    ∀ (l : List α) (n : ℕ), (List.enumFrom n l).Pairwise (fun a b => a.1 < b.1) := by
  intro l
  induction l with
  | nil =>
    intro n
    simp [List.enumFrom]
  | cons a t ih =>
    intro n
    rw [List.enumFrom_cons]
    refine List.pairwise_cons.2 ⟨?_, ih (n + 1)⟩
    intro x hx
    exact lt_of_lt_of_le (Nat.lt_succ_self n) (le_fst_of_mem_enumFrom t (n + 1) x hx)

theorem mem_enumFrom_getElem {α : Type} :
    ∀ (l : List α) (n : ℕ) (x : ℕ × α), x ∈ List.enumFrom n l →
      ∃ k, k < l.length ∧ l[k]? = some x.2 ∧ x.1 = n + k := by
  intro l
  induction l with
  | nil =>
    intro n x hx
    simp [List.enumFrom] at hx
  | cons a t ih =>
    intro n x hx
    rcases List.mem_cons.1 (by simpa [List.enumFrom_cons] using hx) with rfl | hxt
    · exact ⟨0, Nat.succ_pos _, by simp, rfl⟩
    · obtain ⟨k, hk, hget, hx1⟩ := ih (n + 1) x hxt
      exact ⟨k + 1, Nat.succ_lt_succ hk, by simpa using hget, by omega⟩

theorem docSims_pairwise_fst (cosSim : List ℚ → List ℚ → ℚ) (cfg : SearchConfig)
    (qe : List ℚ) (de : List (List ℚ)) :
    (docSims cosSim cfg qe de).Pairwise (fun a b => a.1 < b.1) := by
  unfold docSims
  exact List.pairwise_map.2 (pairwise_fst_lt_enumFrom de 0)

theorem mem_docSims {cosSim : List ℚ → List ℚ → ℚ} {cfg : SearchConfig}
    {qe : List ℚ} {de : List (List ℚ)} {s : ℕ × ℚ}
    (hs : s ∈ docSims cosSim cfg qe de) :
    ∃ k v, k < de.length ∧ de[k]? = some v ∧
      s = (k, computeSimilarity cosSim cfg qe v) := by
  unfold docSims at hs
  obtain ⟨p, hp, rfl⟩ := List.mem_map.1 hs
  obtain ⟨k, hk, hget, hx1⟩ := mem_enumFrom_getElem de 0 p (by simpa [List.enum] using hp)
  refine ⟨k, p.2, hk, hget, ?_⟩
  simp [hx1]

theorem rerankSims_pairwise_stable (cosSim : List ℚ → List ℚ → ℚ)
    (cfg : SearchConfig) (qe : List ℚ) (de : List (List ℚ)) :
    (rerankSims cosSim cfg qe de).Pairwise stableOrder := by
  have hf : ((docSims cosSim cfg qe de).filter
      (fun s => effectiveThreshold cfg.rerankThreshold < s.2)).Pairwise
        (fun a b => a.1 < b.1) :=
    (docSims_pairwise_fst cosSim cfg qe de).filter _
  have hs := pairwise_stable_insertionSort _ hf
  unfold rerankSims
  rcases hmr : cfg.maxResults with _ | m
  · simpa [sliceMax] using hs
  · simp only [sliceMax]
    exact List.Pairwise.sublist (List.take_sublist m _) hs

theorem mem_rerankSims {cosSim : List ℚ → List ℚ → ℚ} {cfg : SearchConfig}
    {qe : List ℚ} {de : List (List ℚ)} {s : ℕ × ℚ}
    (hs : s ∈ rerankSims cosSim cfg qe de) :
    s ∈ docSims cosSim cfg qe de ∧
      effectiveThreshold cfg.rerankThreshold < s.2 := by
  unfold rerankSims at hs
  have hs2 : s ∈ List.insertionSort simOrder
      ((docSims cosSim cfg qe de).filter
        (fun s => effectiveThreshold cfg.rerankThreshold < s.2)) := by
    rcases hmr : cfg.maxResults with _ | m
    · simpa [hmr, sliceMax] using hs
    · rw [hmr] at hs
      exact (List.take_sublist m _).subset hs
  have hs3 := (List.mem_insertionSort simOrder).1 hs2
  have hsf := List.mem_filter.1 hs3
  exact ⟨hsf.1, by simpa using hsf.2⟩

theorem rerankSims_length_le {cosSim : List ℚ → List ℚ → ℚ} {cfg : SearchConfig}
    {qe : List ℚ} {de : List (List ℚ)} {m : ℕ} (hm : cfg.maxResults = some m) :
    (rerankSims cosSim cfg qe de).length ≤ m := by
  unfold rerankSims
  rw [hm]
  simp [sliceMax]

theorem rerankSims_fst_nodup (cosSim : List ℚ → List ℚ → ℚ) (cfg : SearchConfig)
    (qe : List ℚ) (de : List (List ℚ)) :
    ((rerankSims cosSim cfg qe de).map Prod.fst).Nodup := by
  have hf : ((docSims cosSim cfg qe de).filter
      (fun s => effectiveThreshold cfg.rerankThreshold < s.2)).Pairwise
        (fun a b => a.1 < b.1) :=
    (docSims_pairwise_fst cosSim cfg qe de).filter _
  have hnodupF : (((docSims cosSim cfg qe de).filter
      (fun s => effectiveThreshold cfg.rerankThreshold < s.2)).map Prod.fst).Nodup :=
    List.pairwise_map.2 (hf.imp fun h => Nat.ne_of_lt h)
  have hperm := List.perm_insertionSort simOrder
    ((docSims cosSim cfg qe de).filter
      (fun s => effectiveThreshold cfg.rerankThreshold < s.2))
  have hnodupS : ((List.insertionSort simOrder
      ((docSims cosSim cfg qe de).filter
        (fun s => effectiveThreshold cfg.rerankThreshold < s.2))).map
          Prod.fst).Nodup :=
    ((hperm.map Prod.fst).nodup_iff).2 hnodupF
  unfold rerankSims
  rcases hmr : cfg.maxResults with _ | m
  · simpa [sliceMax] using hnodupS
  · simp only [sliceMax]
    exact List.Nodup.sublist ((List.take_sublist m _).map Prod.fst) hnodupS

/-! ## Claim theorems (rerank ordering) -/

/-- C1: for a non-empty document list, a configuration with supplied
threshold `t` and bound `m`, and a spec-conforming embedding model (one
vector per document), every returned document has a recomputed similarity
(under `config.similarityMeasure`, i.e. via `computeSimilarity`) strictly
above `t`, and at most `m` documents are returned.  (When `t = 0` the code
filters against the fallback `0.3 > 0 = t`, so the bound still holds.) -/
theorem rerankDocs_threshold_and_max
    (cosSim : List ℚ → List ℚ → ℚ) (cfg : SearchConfig) (query : String)
    (docs : List Document) (emb : Embeddings) (t : ℚ) (m : ℕ)
    (hne : docs ≠ [])
    (ht : cfg.rerankThreshold = some t)
    (hm : cfg.maxResults = some m)
    (hlen : (emb.embedDocuments (docs.map Document.pageContent)).length =
      docs.length) :
    (rerankDocs cosSim cfg query docs emb).length ≤ m ∧
      ∀ d ∈ rerankDocs cosSim cfg query docs emb, ∃ (i : ℕ) (v : List ℚ),
        docs[i]? = some d ∧
        (emb.embedDocuments (docs.map Document.pageContent))[i]? = some v ∧
        t < computeSimilarity cosSim cfg (emb.embedQuery query) v := by
  have hne' : docs.isEmpty = false := by simpa [List.isEmpty_iff] using hne
  have hr : rerankDocs cosSim cfg query docs emb =
      (rerankSims cosSim cfg (emb.embedQuery query)
          (emb.embedDocuments (docs.map Document.pageContent))).map
        (fun s => docs.getD s.1 default) := by
    simp [rerankDocs, rerankDocsT, hne']
  constructor
  · rw [hr, List.length_map]
    exact rerankSims_length_le hm
  · intro d hd
    rw [hr] at hd
    obtain ⟨s, hs, rfl⟩ := List.mem_map.1 hd
    obtain ⟨hsd, hsp⟩ := mem_rerankSims hs
    obtain ⟨k, v, hk, hget, rfl⟩ := mem_docSims hsd
    have hkd : k < docs.length := hlen ▸ hk
    refine ⟨k, v, ?_, hget, ?_⟩
    · simp [List.getD_eq_getElem?_getD, List.getElem?_eq_getElem hkd]
    · have hle : t ≤ effectiveThreshold (some t) := le_effectiveThreshold t
      rw [ht] at hsp
      exact lt_of_le_of_lt hle hsp

/-- Witness for C1 at one document embedding to `[1]` under the `dot`
measure, threshold `1/2`, bound `2`. -/
theorem rerankDocs_threshold_and_max_witness :
    (([wDoc] : List Document) ≠ []) ∧
      wCfg.rerankThreshold = some (1/2) ∧
      wCfg.maxResults = some 2 ∧
      (wEmb1.embedDocuments ([wDoc].map Document.pageContent)).length =
        ([wDoc] : List Document).length ∧
      ((rerankDocs (fun _ _ => 0) wCfg "q" [wDoc] wEmb1).length ≤ 2 ∧
        ∀ d ∈ rerankDocs (fun _ _ => 0) wCfg "q" [wDoc] wEmb1,
          ∃ (i : ℕ) (v : List ℚ),
          ([wDoc] : List Document)[i]? = some d ∧
          (wEmb1.embedDocuments ([wDoc].map Document.pageContent))[i]? = some v ∧
          (1/2 : ℚ) < computeSimilarity (fun _ _ => 0) wCfg (wEmb1.embedQuery "q") v) :=
  ⟨by simp, rfl, rfl, rfl,
    rerankDocs_threshold_and_max (fun _ _ => 0) wCfg "q" [wDoc] wEmb1 (1/2) 2
      (by simp) rfl rfl rfl⟩

/-- C3: the returned sequence is the scored pipeline's output mapped back to
documents, and that pipeline output is sorted by similarity descending with
stable ties: any two entries with equal scores keep their input order
(strictly increasing input indices). -/
theorem rerankDocs_sorted_stable (cosSim : List ℚ → List ℚ → ℚ)
    (cfg : SearchConfig) (query : String) (docs : List Document)
    (emb : Embeddings) :
    (docs ≠ [] →
        rerankDocs cosSim cfg query docs emb =
          (rerankSims cosSim cfg (emb.embedQuery query)
              (emb.embedDocuments (docs.map Document.pageContent))).map
            (fun s => docs.getD s.1 default)) ∧
      (rerankSims cosSim cfg (emb.embedQuery query)
          (emb.embedDocuments (docs.map Document.pageContent))).Pairwise
        (fun a b => b.2 ≤ a.2 ∧ (a.2 = b.2 → a.1 < b.1)) := by
  constructor
  · intro hne
    have hne' : docs.isEmpty = false := by simpa [List.isEmpty_iff] using hne
    simp [rerankDocs, rerankDocsT, hne']
  · have h := rerankSims_pairwise_stable cosSim cfg (emb.embedQuery query)
      (emb.embedDocuments (docs.map Document.pageContent))
    refine h.imp ?_
    intro a b hab
    rcases hab with hlt | ⟨heq, hidx⟩
    · refine ⟨le_of_lt hlt, fun he => absurd hlt ?_⟩
      rw [he]
      exact lt_irrefl _
    · exact ⟨le_of_eq heq.symm, fun _ => hidx⟩

/-- Witness for C3 at a singleton document list. -/
theorem rerankDocs_sorted_stable_witness :
    (([wDoc] : List Document) ≠ []) ∧
      rerankDocs (fun _ _ => 0) wCfg "q" [wDoc] wEmb1 =
        (rerankSims (fun _ _ => 0) wCfg (wEmb1.embedQuery "q")
            (wEmb1.embedDocuments ([wDoc].map Document.pageContent))).map
          (fun s => ([wDoc] : List Document).getD s.1 default) ∧
      (rerankSims (fun _ _ => 0) wCfg (wEmb1.embedQuery "q")
          (wEmb1.embedDocuments ([wDoc].map Document.pageContent))).Pairwise
        (fun a b => b.2 ≤ a.2 ∧ (a.2 = b.2 → a.1 < b.1)) :=
  ⟨by simp,
    (rerankDocs_sorted_stable (fun _ _ => 0) wCfg "q" [wDoc] wEmb1).1 (by simp),
    (rerankDocs_sorted_stable (fun _ _ => 0) wCfg "q" [wDoc] wEmb1).2⟩

/-- C9: for a spec-conforming embedding model, every returned document is an
element of the input list (the very same `Document` value, content and
metadata included), and the selected input indices are pairwise distinct, so
no input position is used twice. -/
theorem rerankDocs_output_from_input (cosSim : List ℚ → List ℚ → ℚ)
    (cfg : SearchConfig) (query : String) (docs : List Document)
    (emb : Embeddings)
    (hlen : (emb.embedDocuments (docs.map Document.pageContent)).length =
      docs.length) :
    (∀ d ∈ rerankDocs cosSim cfg query docs emb, d ∈ docs) ∧
      ((rerankSims cosSim cfg (emb.embedQuery query)
          (emb.embedDocuments (docs.map Document.pageContent))).map
            Prod.fst).Nodup := by
  constructor
  · intro d hd
    by_cases hne : docs.isEmpty
    · simp [rerankDocs, rerankDocsT, hne] at hd
    · have hne' : docs.isEmpty = false := by simpa using hne
      simp only [rerankDocs, rerankDocsT, hne', Bool.false_eq_true, if_false] at hd
      obtain ⟨s, hs, rfl⟩ := List.mem_map.1 hd
      obtain ⟨hsd, _⟩ := mem_rerankSims hs
      obtain ⟨k, v, hk, _, rfl⟩ := mem_docSims hsd
      have hkd : k < docs.length := hlen ▸ hk
      simp [List.getD_eq_getElem?_getD, List.getElem?_eq_getElem hkd]
  · exact rerankSims_fst_nodup cosSim cfg (emb.embedQuery query)
      (emb.embedDocuments (docs.map Document.pageContent))

/-- Witness for C9 at a singleton document list. -/
theorem rerankDocs_output_from_input_witness :
    ((wEmb1.embedDocuments ([wDoc].map Document.pageContent)).length =
        ([wDoc] : List Document).length) ∧
      ((∀ d ∈ rerankDocs (fun _ _ => 0) wCfg "q" [wDoc] wEmb1,
          d ∈ ([wDoc] : List Document)) ∧
        ((rerankSims (fun _ _ => 0) wCfg (wEmb1.embedQuery "q")
            (wEmb1.embedDocuments ([wDoc].map Document.pageContent))).map
              Prod.fst).Nodup) :=
  ⟨rfl, rerankDocs_output_from_input (fun _ _ => 0) wCfg "q" [wDoc] wEmb1 rfl⟩

/-! ## Title-extraction lemmas -/

theorem hasSub_false_elim {needle : List Char} {c : Char} {rest : List Char}
    (h : hasSub needle (c :: rest) = false) :
    charsPre needle (c :: rest) = false ∧ hasSub needle rest = false := by
  simpa [hasSub, Bool.or_eq_false_iff] using h

theorem lazyCapture_eq_none : ∀ {l : List Char},
    hasSub closeTag l = false → lazyCapture l = none := by
  intro l
  induction l with
  | nil => intro _; rfl
  | cons c rest ih =>
    intro h
    obtain ⟨h1, h2⟩ := hasSub_false_elim h
    simp [lazyCapture, h1, ih h2]

theorem greedyA_eq_none : ∀ {l : List Char},
    hasSub closeTag l = false → greedyA l = none := by
  intro l
  induction l with
  | nil => intro _; rfl
  | cons c rest ih =>
    intro h
    obtain ⟨_, h2⟩ := hasSub_false_elim h
    simp [greedyA, ih h2, lazyCapture_eq_none h2]

theorem hasSub_false_drop {needle : List Char} : ∀ {l : List Char},
    hasSub needle l = false → ∀ k, hasSub needle (l.drop k) = false := by
  intro l
  induction l with
  | nil =>
    intro h k
    simpa using h
  | cons c rest ih =>
    intro h k
    cases k with
    | zero => simpa using h
    | succ k' =>
      obtain ⟨_, h2⟩ := hasSub_false_elim h
      simpa using ih h2 k'

theorem titleCapture_eq_none : ∀ {l : List Char},
    hasSub closeTag l = false → titleCapture l = none := by
  intro l
  induction l with
  | nil => intro _; rfl
  | cons c rest ih =>
    intro h
    obtain ⟨_, h2⟩ := hasSub_false_elim h
    have hg : greedyA (rest.drop 5) = none :=
      greedyA_eq_none (hasSub_false_drop h2 5)
    by_cases hpre : charsPre openTagHead (c :: rest) = true
    · simp [titleCapture, hpre, hg, ih h2]
    · have hpre' : charsPre openTagHead (c :: rest) = false := by simpa using hpre
      simp [titleCapture, hpre', ih h2]

theorem charsPre_append_self : ∀ (n x : List Char), charsPre n (n ++ x) = true := by
  intro n
  induction n with
  | nil => intro x; rfl
  | cons c cs ih => intro x; simp [charsPre, ih]

theorem charsPre_cons_ne {a b : Char} {as bs : List Char} (h : a ≠ b) :
    charsPre (a :: as) (b :: bs) = false := by
  simp [charsPre, h]

theorem lazyCapture_capture {post : List Char} :
    ∀ t : List Char, (∀ c ∈ t, c ≠ '<' ∧ isDot c = true) →
      lazyCapture (t ++ closeTag ++ post) = some t := by
  intro t
  induction t with
  | nil =>
    intro _
    simp [lazyCapture, closeTag, charsPre]
  | cons c t' ih =>
    intro hok
    obtain ⟨hc1, hc2⟩ := hok c (List.mem_cons_self c t')
    have hres := ih (fun d hd => (hok d (List.mem_cons_of_mem c hd)))
    have hpre : charsPre closeTag (c :: (t' ++ (closeTag ++ post))) = false :=
      charsPre_cons_ne (fun he => hc1 he.symm)
    simpa [lazyCapture, hpre, hc2] using hres

theorem greedyA_cons_of_ne (c : Char) (rest : List Char) (hdot : isDot c = true)
    (hne : c ≠ '>') (h : greedyA rest = none) : greedyA (c :: rest) = none := by
  simp [greedyA, hdot, hne, h]

theorem greedyA_cons_gt (rest : List Char) (h : greedyA rest = none) :
    greedyA ('>' :: rest) = lazyCapture rest := by
  have hdot : isDot '>' = true := by decide
  simp [greedyA, hdot, h]

theorem greedyA_scan_none {post : List Char} (hpost : hasSub closeTag post = false) :
    ∀ t : List Char, (∀ c ∈ t, c ≠ '>' ∧ isDot c = true) →
      greedyA (t ++ closeTag ++ post) = none := by
  intro t
  induction t with
  | nil =>
    intro _
    have hgp : greedyA post = none := greedyA_eq_none hpost
    have hlp : lazyCapture post = none := lazyCapture_eq_none hpost
    have h8 : greedyA ('>' :: post) = none := (greedyA_cons_gt post hgp).trans hlp
    have h7 := greedyA_cons_of_ne 'e' _ (by decide) (by decide) h8
    have h6 := greedyA_cons_of_ne 'l' _ (by decide) (by decide) h7
    have h5 := greedyA_cons_of_ne 't' _ (by decide) (by decide) h6
    have h4 := greedyA_cons_of_ne 'i' _ (by decide) (by decide) h5
    have h3 := greedyA_cons_of_ne 't' _ (by decide) (by decide) h4
    have h2 := greedyA_cons_of_ne '/' _ (by decide) (by decide) h3
    have h1 := greedyA_cons_of_ne '<' _ (by decide) (by decide) h2
    simpa [closeTag] using h1
  | cons c t' ih =>
    intro hok
    obtain ⟨hc1, hc2⟩ := hok c (List.mem_cons_self c t')
    have hr := ih (fun d hd => hok d (List.mem_cons_of_mem c hd))
    simpa using greedyA_cons_of_ne c _ hc2 hc1 hr

theorem greedyA_open (post t : List Char) (hpost : hasSub closeTag post = false)
    (ht : ∀ c ∈ t, c ≠ '<' ∧ c ≠ '>' ∧ isDot c = true) :
    greedyA ('>' :: (t ++ closeTag ++ post)) = some t := by
  have hnone : greedyA (t ++ closeTag ++ post) = none :=
    greedyA_scan_none hpost t (fun c hc => ⟨(ht c hc).2.1, (ht c hc).2.2⟩)
  rw [greedyA_cons_gt _ hnone]
  exact lazyCapture_capture t (fun c hc => ⟨(ht c hc).1, (ht c hc).2.2⟩)

theorem titleCapture_cons_found {a : Char} {rest cap : List Char}
    (hpre : charsPre openTagHead (a :: rest) = true)
    (hg : greedyA (rest.drop 5) = some cap) :
    titleCapture (a :: rest) = some cap := by
  simp [titleCapture, hpre, hg]

theorem titleCapture_cons_skip {a : Char} {rest : List Char}
    (hpre : charsPre openTagHead (a :: rest) = false) :
    titleCapture (a :: rest) = titleCapture rest := by
  simp [titleCapture, hpre]

theorem titleCapture_found (t post : List Char)
    (hpost : hasSub closeTag post = false)
    (ht : ∀ c ∈ t, c ≠ '<' ∧ c ≠ '>' ∧ isDot c = true) :
    ∀ pre : List Char, (∀ c ∈ pre, c ≠ '<') →
      titleCapture (pre ++ openTagHead ++ '>' :: (t ++ closeTag ++ post)) = some t := by
  intro pre
  induction pre with
  | nil =>
    intro _
    have hg := greedyA_open post t hpost ht
    have hpre6 : charsPre openTagHead
        (openTagHead ++ '>' :: (t ++ closeTag ++ post)) = true :=
      charsPre_append_self _ _
    simpa using @titleCapture_cons_found '<'
      ('t' :: 'i' :: 't' :: 'l' :: 'e' :: '>' :: (t ++ closeTag ++ post)) t
      (by simpa [openTagHead] using hpre6) (by simpa using hg)
  | cons c pre' ih =>
    intro hok
    have hc := hok c (List.mem_cons_self c pre')
    have hskip : titleCapture
        (c :: (pre' ++ openTagHead ++ '>' :: (t ++ closeTag ++ post))) =
        titleCapture (pre' ++ openTagHead ++ '>' :: (t ++ closeTag ++ post)) :=
      titleCapture_cons_skip (charsPre_cons_ne (fun he => hc he.symm))
    have hrest := ih (fun d hd => hok d (List.mem_cons_of_mem c hd))
    simpa using hskip.trans hrest

/-! ## Claim theorems (title extraction) -/

/-- C4 counterexample: on a document whose first `<title>` element contains
`A` (and a second one contains `B`), the greedy `.*` of the title regex
skips to the *last* viable `<title...>` occurrence, so the code extracts
`B`, not the content `A` of the first `<title>` element. -/
theorem extractTitle_not_first_title :
    extractTitle "<title>A</title><title>B</title>" "https://x.test/a" = "B" ∧
      ("B" : String) ≠ "A" := by
  constructor
  · rfl
  · decide

/-- C4 (amended): the title is the capture of the leftmost-greedy match of
`<title.*>(.*?)<\/title>` when that capture is non-empty, and the URL
otherwise.  Concretely: (1) when the HTML contains no `</title>` substring
at all — in particular for `<html><body>No title here</body></html>` — no
match exists and the title equals the source URL; (2) for HTML of the shape
`pre ++ "<title>" ++ t ++ "</title>" ++ post` where `pre` contains no `<`,
the title text `t` is non-empty and free of `<`, `>` and line terminators,
and `post` contains no further `</title>`, the extracted title is exactly
`t` (which is then the content of the unique `<title>` element). -/
theorem extractTitle_amended (html : String) (pre t post : List Char)
    (url : String) :
    (hasSub closeTag html.data = false → extractTitle html url = url) ∧
      ((∀ c ∈ pre, c ≠ '<') → t ≠ [] →
        (∀ c ∈ t, c ≠ '<' ∧ c ≠ '>' ∧ isDot c = true) →
        hasSub closeTag post = false →
        extractTitle
            (String.mk (pre ++ openTagHead ++ '>' :: (t ++ closeTag ++ post)))
            url =
          String.mk t) := by
  constructor
  · intro h
    simp [extractTitle, titleCapture_eq_none h]
  · intro hpre hne ht hpost
    have hcap := titleCapture_found t post hpost ht pre hpre
    simp only [List.append_assoc] at hcap
    simp [extractTitle, hcap, List.isEmpty_iff, hne]

/-- Witness for C4's amended theorem: the no-title scenario from the spec
yields the URL, and a minimal well-formed page yields its title text. -/
theorem extractTitle_amended_witness :
    (hasSub closeTag ("<html><body>No title here</body></html>" : String).data =
        false ∧
      extractTitle "<html><body>No title here</body></html>" "https://x.test/a" =
        "https://x.test/a") ∧
      ((∀ c ∈ (['H', 'i'] : List Char), c ≠ '<' ∧ c ≠ '>' ∧ isDot c = true) ∧
        hasSub closeTag ['x'] = false ∧
        extractTitle
            (String.mk (([] : List Char) ++ openTagHead ++
              '>' :: (['H', 'i'] ++ closeTag ++ ['x'])))
            "u" =
          String.mk ['H', 'i']) := by
  refine ⟨⟨by decide, ?_⟩, by decide, by decide, ?_⟩
  · exact (extractTitle_amended "<html><body>No title here</body></html>" [] []
      [] "https://x.test/a").1 (by decide)
  · exact (extractTitle_amended "" [] ['H', 'i'] ['x'] "u").2 (by decide)
      (by decide) (by decide) (by decide)
